import Mathlib

/-!
# Verification of the field-filling / RTL text-layout engine (`src/fillPdf.ts`)

Shallow embedding of the pure layout logic of `fillPdf.ts`:

* strings are modelled as lists of Unicode code points (`Str := List Nat`);
  the repository only manipulates BMP characters, so JavaScript UTF-16 code
  units and code points coincide on all inputs considered here;
* JavaScript numbers are modelled as exact rationals (`ℚ`); floating-point
  rounding is not modelled;
* the external font capability `font.widthOfTextAtSize` is a parameter
  `measure : Str → ℚ → ℚ`;
* `Intl.Segmenter` grapheme segmentation (an external capability of the code)
  is modelled by the Unicode rule relevant to the character repertoire that
  actually reaches it here: a cluster is one character together with the
  following maximal run of characters with `Grapheme_Cluster_Break = Extend`
  (for the Hebrew block these are the combining marks U+0591–U+05BD, U+05BF,
  U+05C1–U+05C2, U+05C4–U+05C5, U+05C7).  The control-pair rule (CR LF) and
  the no-segmenter naive fallback of `reverseGraphemes` are not modelled;
* PDF side effects are reified as a list of `DrawOp` instructions; colors and
  the PDF container itself are not modelled (no claim concerns them).
-/

/-- A JavaScript string, as its sequence of code points. -/
abbrev Str := List Nat

/-- The regex class `[֐-׿]` (Hebrew block) used by `containsHebrew`
and by the tokenizer of `rtlVisualize`. -/
def isHebrewB (c : Nat) : Bool := 0x590 ≤ c && c ≤ 0x5FF

/-- `containsHebrew` from `fillPdf.ts`: `/[֐-׿]/.test(s)`. -/
def containsHebrew (s : Str) : Bool := s.any isHebrewB

/-- Characters with Unicode property `Grapheme_Cluster_Break = Extend` inside
the Hebrew block (the combining accents and points). -/
def isExtend (c : Nat) : Bool :=
  (0x591 ≤ c && c ≤ 0x5BD) || c == 0x5BF || c == 0x5C1 || c == 0x5C2 ||
  (0x5C4 ≤ c && c ≤ 0x5C5) || c == 0x5C7

/-- The JavaScript regex class `\s`. -/
def isJsWhitespace (c : Nat) : Bool :=
  c == 0x9 || c == 0xA || c == 0xB || c == 0xC || c == 0xD || c == 0x20 ||
  c == 0xA0 || c == 0x1680 || (0x2000 ≤ c && c ≤ 0x200A) ||
  c == 0x2028 || c == 0x2029 || c == 0x202F || c == 0x205F ||
  c == 0x3000 || c == 0xFEFF

/-- One character of the fast-path regex class of `rtlVisualize`:
`[֐-׿\s.,\-–—"'\(\)\[\]\/\\:;!?0-9]`.  Note that the class
contains the ASCII digits `0-9`. -/
def isFastChar (c : Nat) : Bool :=
  isHebrewB c || isJsWhitespace c ||
  c == 0x2E || c == 0x2C || c == 0x2D || c == 0x2013 || c == 0x2014 ||
  c == 0x22 || c == 0x27 || c == 0x28 || c == 0x29 || c == 0x5B ||
  c == 0x5D || c == 0x2F || c == 0x5C || c == 0x3A || c == 0x3B ||
  c == 0x21 || c == 0x3F || (0x30 ≤ c && c ≤ 0x39)

/-- The fast-path test of `rtlVisualize`:
`/^[֐-׿\s.,\-–—"'\(\)\[\]\/\\:;!?0-9]+$/.test(input)`. -/
def isFastPath (s : Str) : Bool := !s.isEmpty && s.all isFastChar

/-- The regex class `[A-Za-z0-9]` of the tokenizer of `rtlVisualize`. -/
def isLatinDigit (c : Nat) : Bool :=
  (0x41 ≤ c && c ≤ 0x5A) || (0x61 ≤ c && c ≤ 0x7A) || (0x30 ≤ c && c ≤ 0x39)

/-- The three token classes of the tokenizer regex
`/[֐-׿]+|[A-Za-z0-9]+|[^֐-׿A-Za-z0-9]+/g`. -/
inductive CharClass : Type
  | heb : CharClass
  | lat : CharClass
  | oth : CharClass
deriving DecidableEq, Repr

/-- Class of a single character.  The regex alternatives are ordered, so a
character in both the Hebrew and the Latin/digit class would be Hebrew; the
classes are in fact disjoint. -/
def classOf (c : Nat) : CharClass :=
  if isHebrewB c then CharClass.heb
  else if isLatinDigit c then CharClass.lat
  else CharClass.oth

/-- `input.match(/[֐-׿]+|[A-Za-z0-9]+|[^֐-׿A-Za-z0-9]+/g)`:
the maximal runs of same-class characters, in order.  (`String.match` with a
`g` regex whose alternatives partition the alphabet returns exactly these
runs; it returns `null` — here `[]` — only on the empty string.) -/
def runs : Str → List Str
  | [] => []
  | c :: t =>
    match runs t with
    | [] => [[c]]
    | r :: rest =>
      if classOf c = classOf r.headI then (c :: r) :: rest
      else [c] :: r :: rest

/-- Grapheme segmentation: break before every character except one with
`Grapheme_Cluster_Break = Extend`; models
`new Intl.Segmenter("he", { granularity: "grapheme" })` on the character
repertoire used here. -/
def segmentGraphemes : Str → List Str
  | [] => []
  | c :: t =>
    match segmentGraphemes t with
    | [] => [[c]]
    | cl :: rest =>
      if isExtend cl.headI then (c :: cl) :: rest
      else [c] :: cl :: rest

/-- `reverseGraphemes` from `fillPdf.ts` (the `Intl.Segmenter` branch):
segment into graphemes, reverse the segment list, join. -/
def reverseGraphemes (s : Str) : Str := ((segmentGraphemes s).reverse).flatten

/-- `rtlVisualize` from `fillPdf.ts`: fast path reverses graphemes of the
whole string; the general path tokenizes into class runs, reverses graphemes
inside runs containing a Hebrew character, and reverses the run order. -/
def rtlVisualize (s : Str) : Str :=
  if isFastPath s then reverseGraphemes s
  else
    match runs s with
    | [] => s
    | t :: ts =>
      ((((t :: ts)).map fun r =>
        if r.any isHebrewB then reverseGraphemes r else r).reverse).flatten

/-- `rendered.split(/\r?\n/)`: split on `\n` or `\r\n`, keeping empty lines;
a lone `\r` is not a separator. -/
def splitLines : Str → List Str
  | [] => [[]]
  | 13 :: 10 :: t => [] :: splitLines t
  | 10 :: t => [] :: splitLines t
  | c :: t =>
    match splitLines t with
    | [] => [[c]]
    | l :: ls => (c :: l) :: ls

/-- `FieldSpec.direction` values. -/
inductive Direction : Type
  | ltr : Direction
  | rtl : Direction
  | auto : Direction
deriving DecidableEq, Repr

/-- `FieldSpec.align` values. -/
inductive Align : Type
  | left : Align
  | center : Align
  | right : Align
deriving DecidableEq, Repr

/-- `FieldSpec` from `fillPdf.ts`; optional TS fields become `Option`. -/
structure FieldSpecL : Type where
  pageIndex : Nat
  x : ℚ
  y : ℚ
  width : Option ℚ := none
  height : Option ℚ := none
  fontSize : Option ℚ := none
  lineHeight : Option ℚ := none
  align : Option Align := none
  maxFontSize : Option ℚ := none
  minFontSize : Option ℚ := none
  clearBackground : Bool := false
  direction : Option Direction := none
deriving DecidableEq, Repr

/-- JavaScript truthiness of an optional number (`!x`, `x ? _ : _`):
`undefined` and `0` are falsy.  (`NaN` is outside the model.) -/
def optTruthy : Option ℚ → Bool
  | none => false
  | some w => w != 0

/-- Direction resolution (line 84 of `fillPdf.ts`):
`spec.direction ?? (autoDetectRtl && containsHebrew(rawValue) ? "rtl" : "ltr")`.
`??` substitutes only for an absent value. -/
def resolveDirection (specDir : Option Direction) (autoDetectRtl : Bool)
    (rawValue : Str) : Direction :=
  specDir.getD
    (if autoDetectRtl && containsHebrew rawValue then Direction.rtl
     else Direction.ltr)

/-- Alignment resolution (line 89 of `fillPdf.ts`):
`spec.align ?? (direction === "rtl" && defaultRtlAlignRight && spec.width ? "right" : "left")`. -/
def resolveAlign (specAlign : Option Align) (direction : Direction)
    (defaultRtlAlignRight : Bool) (width : Option ℚ) : Align :=
  specAlign.getD
    (if direction = Direction.rtl ∧ defaultRtlAlignRight = true ∧
        optTruthy width = true then Align.right
     else Align.left)

/-- `spec.fontSize ?? options.defaultFontSize ?? 12`. -/
def baseFontSizeOf (defaultFontSize : Option ℚ) (spec : FieldSpecL) : ℚ :=
  spec.fontSize.getD (defaultFontSize.getD 12)

/-- Render-text selection (lines 99–104 of `fillPdf.ts`). -/
def renderedText (direction : Direction) (rawValue : Str) : Str :=
  if direction = Direction.rtl then rawValue
  else if direction = Direction.ltr ∧ containsHebrew rawValue = true then
    rtlVisualize rawValue
  else rawValue

/-- JavaScript's larger-of-two-numbers (`if (w > max) max = w;` and
`Math.max`), written as the source's conditional so it computes by kernel
reduction. -/
def jsMax (a b : ℚ) : ℚ := if a < b then b else a

/-- `maxLineWidth` from `fillPdf.ts`: largest measured line width, 0 for no
lines. -/
def maxLineWidth (measure : Str → ℚ → ℚ) (lines : List Str) (fontSize : ℚ) : ℚ :=
  lines.foldl (fun m l => jsMax m (measure l fontSize)) 0

/-- The `while (size > minSize)` loop of `fitFontSizeToWidth`, with an explicit
fuel that bounds the number of iterations.  The fuel-exhausted result is
`minSize`, which is also what the loop returns on normal exit; with the fuel
chosen in `fitFontSizeToWidth` the `0` case is never reached while
`minSize < size` holds. -/
def fitScan (fits : ℚ → Bool) (minSize : ℚ) : Nat → ℚ → ℚ
  | 0, _ => minSize
  | fuel + 1, size =>
    if minSize < size then
      if fits size then size else fitScan fits minSize fuel (size - 1/2)
    else minSize

/-- An upper bound on the iteration count of the fit loop: the loop runs while
`minSize < maxSize - k/2`, i.e. at most `⌈2*(maxSize - minSize)⌉` times. -/
def fitFuel (maxSize minSize : ℚ) : Nat := (⌈2 * (maxSize - minSize)⌉).toNat + 1

/-- `fitFontSizeToWidth` from `fillPdf.ts`: no (truthy) width means the
fallback size; otherwise scan from `maxFontSize ?? fallback` down in steps of
0.5 while above `minFontSize ?? 6`, returning the first size whose widest
line fits, else the floor. -/
def fitFontSizeToWidth (measure : Str → ℚ → ℚ) (lines : List Str)
    (spec : FieldSpecL) (fallback : ℚ) : ℚ :=
  match spec.width with
  | none => fallback
  | some w =>
    if w = 0 then fallback
    else
      fitScan (fun size => maxLineWidth measure lines size ≤ w)
        (spec.minFontSize.getD 6)
        (fitFuel (spec.maxFontSize.getD fallback) (spec.minFontSize.getD 6))
        (spec.maxFontSize.getD fallback)

/-- `computeAlignedX` from `fillPdf.ts`:
`if (!width || align === "left") return x; ...`. -/
def computeAlignedX (x : ℚ) (width : Option ℚ) (align : Align)
    (textWidth : ℚ) : ℚ :=
  match width with
  | none => x
  | some w =>
    if w = 0 ∨ align = Align.left then x
    else if align = Align.center then x + (w - textWidth) / 2
    else x + (w - textWidth)

/-- `estimateBlockHeight` from `fillPdf.ts` (1.2 and 1.35 as exact rationals). -/
def estimateBlockHeight (lineCount : Nat) (fontSize : ℚ)
    (lineHeight : Option ℚ) : ℚ :=
  jsMax (fontSize * (27/20))
    (((lineCount : ℚ) - 1) * lineHeight.getD (fontSize * (6/5)) +
      fontSize * (27/20))

/-- A drawing instruction emitted to the PDF collaborator (colors omitted:
the background rectangle is always white and the text color is fixed per
fill; no claim concerns them). -/
inductive DrawOp : Type
  | rect (page : Nat) (x y w h : ℚ) : DrawOp
  | text (page : Nat) (s : Str) (x y size : ℚ) : DrawOp
deriving DecidableEq, Repr

/-- The per-field body of the loop of `fillFieldsToNewPdfBytes`
(lines 81–145 of `fillPdf.ts`), as the list of draw instructions it emits. -/
def fillField (measure : Str → ℚ → ℚ) (autoDetectRtl defaultRtlAlignRight : Bool)
    (defaultFontSize : Option ℚ) (spec : FieldSpecL) (rawValue : Str) :
    List DrawOp :=
  let direction := resolveDirection spec.direction autoDetectRtl rawValue
  let align := resolveAlign spec.align direction defaultRtlAlignRight spec.width
  let baseFontSize := baseFontSizeOf defaultFontSize spec
  let rendered := renderedText direction rawValue
  let lines := splitLines rendered
  let fitted := fitFontSizeToWidth measure lines spec baseFontSize
  let lineHeight := spec.lineHeight.getD (fitted * (6/5))
  let bgOps :=
    if spec.clearBackground && (optTruthy spec.width || optTruthy spec.height)
    then
      [DrawOp.rect spec.pageIndex spec.x
        (spec.y - spec.height.getD (estimateBlockHeight lines.length fitted
            spec.lineHeight) + fitted * (1/5))
        (spec.width.getD (maxLineWidth measure lines fitted))
        (spec.height.getD (estimateBlockHeight lines.length fitted
            spec.lineHeight))]
    else []
  bgOps ++ lines.enum.map (fun p =>
    DrawOp.text spec.pageIndex p.2
      (computeAlignedX spec.x spec.width align (measure p.2 fitted))
      (spec.y - (p.1 : ℚ) * lineHeight) fitted)

/-- The font size a field is drawn at (the `fittedFontSize` of line 109).
The alignment options play no part in it. -/
def usedFontSize (measure : Str → ℚ → ℚ)
    (autoDetectRtl : Bool) (defaultFontSize : Option ℚ)
    (spec : FieldSpecL) (rawValue : Str) : ℚ :=
  fitFontSizeToWidth measure
    (splitLines (renderedText
      (resolveDirection spec.direction autoDetectRtl rawValue) rawValue))
    spec (baseFontSizeOf defaultFontSize spec)

/-- The message of `throw new Error(...)` on an unmapped field name. -/
def unknownFieldMessage (n : String) : String :=
  "Unknown field \"" ++ n ++ "\" (no mapping found)."

/-- The entry loop of `fillFieldsToNewPdfBytes` over `Object.entries(fields)`:
an unmapped name throws, aborting the whole fill with no output; otherwise
the field's draw instructions are emitted in request order and the final
`pdfDoc.save()` is modelled by the `Except.ok` payload. -/
def fillFields (measure : Str → ℚ → ℚ)
    (autoDetectRtl defaultRtlAlignRight : Bool) (defaultFontSize : Option ℚ)
    (fieldMap : String → Option FieldSpecL) :
    List (String × Str) → Except String (List DrawOp)
  | [] => Except.ok []
  | (n, v) :: rest =>
    match fieldMap n with
    | none => Except.error (unknownFieldMessage n)
    | some spec =>
      Except.map
        (fun ops =>
          fillField measure autoDetectRtl defaultRtlAlignRight defaultFontSize
            spec v ++ ops)
        (fillFields measure autoDetectRtl defaultRtlAlignRight defaultFontSize
          fieldMap rest)


/-! ## Structure lemmas about runs and grapheme segmentation -/

/-- The runs of a string concatenate back to the string. -/
theorem runs_flatten : ∀ s : Str, (runs s).flatten = s := by
  intro s
  induction s with
  | nil => rfl
  | cons c t ih =>
    rw [runs]
    cases h : runs t with
    | nil =>
      have ht : t = [] := by rw [h] at ih; simpa using ih.symm
      simp [ht]
    | cons r rest =>
      rw [h] at ih
      by_cases hc : classOf c = classOf r.headI <;>
        simp [hc, List.flatten_cons] at ih ⊢ <;> simp [ih]

/-- A character of a run of `s` is a character of `s`. -/
theorem mem_of_mem_runs {c : Nat} {r : Str} {s : Str}
    (hr : r ∈ runs s) (hc : c ∈ r) : c ∈ s := by
  have : c ∈ (runs s).flatten := List.mem_flatten.mpr ⟨r, hr, hc⟩
  rwa [runs_flatten] at this

/-- The grapheme clusters of a string concatenate back to the string. -/
theorem segmentGraphemes_flatten : ∀ s : Str, (segmentGraphemes s).flatten = s := by
  intro s
  induction s with
  | nil => rfl
  | cons c t ih =>
    rw [segmentGraphemes]
    cases h : segmentGraphemes t with
    | nil =>
      have ht : t = [] := by rw [h] at ih; simpa using ih.symm
      simp [ht]
    | cons cl rest =>
      rw [h] at ih
      by_cases he : isExtend cl.headI = true <;>
        simp [he, List.flatten_cons] at ih ⊢ <;> simp [ih]

/-- A character of a grapheme cluster of `s` is a character of `s`. -/
theorem mem_of_mem_segmentGraphemes {c : Nat} {cl : Str} {s : Str}
    (hcl : cl ∈ segmentGraphemes s) (hc : c ∈ cl) : c ∈ s := by
  have : c ∈ (segmentGraphemes s).flatten := List.mem_flatten.mpr ⟨cl, hcl, hc⟩
  rwa [segmentGraphemes_flatten] at this

/-- Clusters are never empty. -/
theorem segmentGraphemes_ne_nil : ∀ (s : Str), ∀ cl ∈ segmentGraphemes s, cl ≠ [] := by
  intro s
  induction s with
  | nil => intro cl h; simp [segmentGraphemes] at h
  | cons c t ih =>
    intro cl hcl
    rw [segmentGraphemes] at hcl
    cases h : segmentGraphemes t with
    | nil => rw [h] at hcl; simp at hcl; simp [hcl]
    | cons cl0 rest =>
      rw [h] at hcl
      by_cases he : isExtend cl0.headI = true <;> simp [he] at hcl
      · rcases hcl with h1 | h2
        · simp [h1]
        · exact ih cl (h ▸ List.mem_cons_of_mem cl0 h2)
      · rcases hcl with h1 | h2
        · simp [h1]
        · exact ih cl (by rw [h]; exact List.mem_cons.mpr h2)

/-- The segmentation of a nonempty string starts with a cluster led by the
string's first character. -/
theorem segmentGraphemes_cons (c : Nat) (t : Str) :
    ∃ u rest, segmentGraphemes (c :: t) = (c :: u) :: rest := by
  rw [segmentGraphemes]
  cases segmentGraphemes t with
  | nil => exact ⟨[], [], rfl⟩
  | cons cl rest =>
    by_cases he : isExtend cl.headI = true <;> simp [he]

/-- Every character after the first inside a cluster is an Extend character. -/
theorem segmentGraphemes_tail_extend : ∀ (s : Str), ∀ cl ∈ segmentGraphemes s,
    ∀ d ∈ cl.tail, isExtend d = true := by
  intro s
  induction s with
  | nil => intro cl h; simp [segmentGraphemes] at h
  | cons c t ih =>
    intro cl hcl d hd
    rw [segmentGraphemes] at hcl
    cases h : segmentGraphemes t with
    | nil => rw [h] at hcl; simp at hcl; subst hcl; simp at hd
    | cons cl0 rest =>
      rw [h] at hcl
      have hcl0 : cl0 ∈ segmentGraphemes t := h ▸ List.mem_cons_self cl0 rest
      have hcl0ne : cl0 ≠ [] := segmentGraphemes_ne_nil t cl0 hcl0
      by_cases he : isExtend cl0.headI = true <;> simp [he] at hcl
      · rcases hcl with h1 | h2
        · subst h1
          simp only [List.tail_cons] at hd
          obtain ⟨e, u, hcl0eq⟩ := List.exists_cons_of_ne_nil hcl0ne
          rw [hcl0eq] at hd he
          simp only [List.headI_cons] at he
          rcases List.mem_cons.mp hd with h3 | h3
          · rw [h3]; exact he
          · have h4 := ih cl0 hcl0 d
            rw [hcl0eq] at h4
            exact h4 (by simpa using h3)
        · exact ih cl (by rw [h]; exact List.mem_cons_of_mem cl0 h2) d hd
      · rcases hcl with h1 | h2
        · subst h1; simp at hd
        · exact ih cl (by rw [h]; exact List.mem_cons.mpr h2) d hd

/-- Every cluster after the first starts with a non-Extend character. -/
theorem segmentGraphemes_later_head : ∀ (s : Str), ∀ cl ∈ (segmentGraphemes s).tail,
    isExtend cl.headI = false := by
  intro s
  induction s with
  | nil => intro cl h; simp [segmentGraphemes] at h
  | cons c t ih =>
    intro cl hcl
    rw [segmentGraphemes] at hcl
    cases h : segmentGraphemes t with
    | nil => rw [h] at hcl; simp at hcl
    | cons cl0 rest =>
      rw [h] at hcl
      by_cases he : isExtend cl0.headI = true <;> simp [he] at hcl
      · exact ih cl (by rw [h]; simpa using hcl)
      · rcases hcl with h1 | h2
        · subst h1; simpa using he
        · exact ih cl (by rw [h]; simpa using h2)

/-- A well-formed cluster: a non-Extend base character followed only by
Extend characters.  Reversing a list of such clusters and re-segmenting the
concatenation recovers exactly the reversed cluster list. -/
def WfCluster (cl : Str) : Prop :=
  ∃ c t, cl = c :: t ∧ isExtend c = false ∧ ∀ d ∈ t, isExtend d = true

/-- If a string does not start with an Extend character, all its clusters are
well-formed. -/
theorem segmentGraphemes_wf (s : Str) (hs : isExtend s.headI = false) :
    ∀ cl ∈ segmentGraphemes s, WfCluster cl := by
  intro cl hcl
  cases s with
  | nil => simp [segmentGraphemes] at hcl
  | cons c t =>
    obtain ⟨u, rest, hseg⟩ := segmentGraphemes_cons c t
    rw [hseg] at hcl
    rcases List.mem_cons.mp hcl with h1 | h2
    · refine ⟨c, u, h1, by simpa using hs, ?_⟩
      intro d hd
      have h5 := segmentGraphemes_tail_extend (c :: t) cl (by rw [hseg]; exact hcl)
      rw [h1] at h5
      exact h5 d (by simpa using hd)
    · have hne := segmentGraphemes_ne_nil (c :: t) cl (by rw [hseg]; exact List.mem_cons_of_mem _ h2)
      obtain ⟨e, v, hev⟩ := List.exists_cons_of_ne_nil hne
      refine ⟨e, v, hev, ?_, ?_⟩
      · have := segmentGraphemes_later_head (c :: t) cl (by rw [hseg]; simpa using h2)
        rwa [hev, List.headI_cons] at this
      · intro d hd
        have := segmentGraphemes_tail_extend (c :: t) cl
          (by rw [hseg]; exact List.mem_cons_of_mem _ h2)
        rw [hev] at this
        exact this d (by simpa using hd)

/-- Prepending a run of Extend characters to a string that does not start
with an Extend character prepends that run to the first cluster position. -/
theorem segmentGraphemes_extend_append :
    ∀ (t : Str), (∀ d ∈ t, isExtend d = true) →
    ∀ (u : Str), isExtend u.headI = false →
    segmentGraphemes (t ++ u) =
      (if t = [] then segmentGraphemes u else t :: segmentGraphemes u) := by
  intro t
  induction t with
  | nil => intro _ u _; simp
  | cons c t' ih =>
    intro ht u hu
    have hc : isExtend c = true := ht c (List.mem_cons_self c t')
    have ht' : ∀ d ∈ t', isExtend d = true := fun d hd => ht d (List.mem_cons_of_mem c hd)
    have ihu := ih ht' u hu
    simp only [List.cons_append, List.cons_ne_nil, if_neg, ite_false]
    rw [segmentGraphemes, ihu]
    by_cases hT : t' = []
    · subst hT
      simp only [ite_true, if_pos rfl]
      cases hseg : segmentGraphemes u with
      | nil => rfl
      | cons cl rest =>
        have hhead : isExtend cl.headI = false := by
          cases u with
          | nil => simp [segmentGraphemes] at hseg
          | cons d us =>
            obtain ⟨v, r2, hv⟩ := segmentGraphemes_cons d us
            rw [hv] at hseg
            injection hseg with h1 _
            rw [← h1, List.headI_cons]
            simpa using hu
        simp [hhead]
    · simp only [if_neg hT]
      obtain ⟨e, v, hev⟩ := List.exists_cons_of_ne_nil hT
      have : isExtend (t' :: segmentGraphemes u).headI.headI = true := by
        rw [List.headI_cons, hev, List.headI_cons]
        exact ht' e (by rw [hev]; exact List.mem_cons_self e v)
      simp only [List.headI_cons] at this ⊢
      simp [this]

/-- Re-segmenting the concatenation of well-formed clusters recovers them. -/
theorem segmentGraphemes_of_wf :
    ∀ (chunks : List Str), (∀ cl ∈ chunks, WfCluster cl) →
    segmentGraphemes chunks.flatten = chunks := by
  intro chunks
  induction chunks with
  | nil => intro _; rfl
  | cons cl rest ih =>
    intro hwf
    obtain ⟨c, t, hct, hc, ht⟩ := hwf cl (List.mem_cons_self cl rest)
    have hrest : ∀ x ∈ rest, WfCluster x := fun x hx => hwf x (List.mem_cons_of_mem cl hx)
    have hresthead : isExtend (rest.flatten).headI = false := by
      cases rest with
      | nil => simp [isExtend]
      | cons cl2 r2 =>
        obtain ⟨c2, t2, hct2, hc2, _⟩ := hrest cl2 (List.mem_cons_self cl2 r2)
        simp [List.flatten_cons, hct2, List.headI_cons]
        exact hc2
    have hext := segmentGraphemes_extend_append t ht rest.flatten hresthead
    rw [List.flatten_cons, hct, List.cons_append, segmentGraphemes, hext, ih hrest]
    by_cases hT : t = []
    · subst hT
      simp only [ite_true, if_pos rfl]
      cases hrest2 : rest with
      | nil => simp [segmentGraphemes]
      | cons cl2 r2 =>
        have : isExtend cl2.headI = false := by
          obtain ⟨c2, t2, hct2, hc2, _⟩ := hrest cl2 (by rw [hrest2]; exact List.mem_cons_self cl2 r2)
          rw [hct2, List.headI_cons]; exact hc2
        simp [this]
    · simp only [if_neg hT]
      obtain ⟨e, v, hev⟩ := List.exists_cons_of_ne_nil hT
      have : isExtend (t.headI) = true := by
        rw [hev, List.headI_cons]
        exact ht e (by rw [hev]; exact List.mem_cons_self e v)
      simp [this]

/-- `reverseGraphemes` permutes the characters of the string. -/
theorem mem_reverseGraphemes {c : Nat} {s : Str} :
    c ∈ reverseGraphemes s ↔ c ∈ s := by
  unfold reverseGraphemes
  rw [List.mem_flatten]
  constructor
  · rintro ⟨cl, hcl, hc⟩
    exact mem_of_mem_segmentGraphemes (List.mem_reverse.mp hcl) hc
  · intro hc
    have : c ∈ (segmentGraphemes s).flatten := by rwa [segmentGraphemes_flatten]
    obtain ⟨cl, hcl, hc2⟩ := List.mem_flatten.mp this
    exact ⟨cl, List.mem_reverse.mpr hcl, hc2⟩

/-- `reverseGraphemes` preserves length. -/
theorem length_reverseGraphemes (s : Str) :
    (reverseGraphemes s).length = s.length := by
  unfold reverseGraphemes
  rw [List.length_flatten, List.map_reverse, List.sum_reverse]
  rw [← List.length_flatten, segmentGraphemes_flatten]

/-- The concatenation of well-formed clusters starts with a non-Extend
character. -/
theorem flatten_wf_headI (chunks : List Str)
    (hwf : ∀ cl ∈ chunks, WfCluster cl) :
    isExtend (chunks.flatten).headI = false := by
  cases chunks with
  | nil => simp [isExtend]
  | cons cl rest =>
    obtain ⟨c, t, hct, hc, _⟩ := hwf cl (List.mem_cons_self cl rest)
    rw [List.flatten_cons, hct, List.cons_append, List.headI_cons]
    exact hc

/-- On strings that do not start with a combining (Extend) character,
`reverseGraphemes` is an involution. -/
theorem reverseGraphemes_involutive (s : Str) (hs : isExtend s.headI = false) :
    reverseGraphemes (reverseGraphemes s) = s := by
  have hwf : ∀ cl ∈ segmentGraphemes s, WfCluster cl := segmentGraphemes_wf s hs
  have hwfrev : ∀ cl ∈ (segmentGraphemes s).reverse, WfCluster cl :=
    fun cl hcl => hwf cl (List.mem_reverse.mp hcl)
  show ((segmentGraphemes (((segmentGraphemes s).reverse).flatten)).reverse).flatten = s
  rw [segmentGraphemes_of_wf _ hwfrev, List.reverse_reverse, segmentGraphemes_flatten]

/-- A string of Hebrew-block characters passes the fast-path test iff it is
nonempty. -/
theorem isFastPath_of_hebrew {s : Str} (hs : s ≠ [])
    (hheb : ∀ c ∈ s, isHebrewB c = true) : isFastPath s = true := by
  unfold isFastPath
  rw [Bool.and_eq_true, List.all_eq_true]
  constructor
  · simpa using hs
  · intro c hc
    unfold isFastChar
    rw [hheb c hc]
    rfl

/-- On a nonempty all-Hebrew string, `rtlVisualize` is exactly
`reverseGraphemes`. -/
theorem rtlVisualize_of_hebrew {s : Str} (hs : s ≠ [])
    (hheb : ∀ c ∈ s, isHebrewB c = true) :
    rtlVisualize s = reverseGraphemes s := by
  unfold rtlVisualize
  rw [if_pos (isFastPath_of_hebrew hs hheb)]

/-! ## C9: double application of the reorderer on pure-RTL strings -/

/-- C9 (amended): for every string of Hebrew-block characters that does not
begin with a combining (Extend) character, applying `rtlVisualize` twice
returns the original string. -/
theorem C9_pure_rtl_involution (s : Str)
    (hheb : ∀ c ∈ s, isHebrewB c = true)
    (hhead : isExtend s.headI = false) :
    rtlVisualize (rtlVisualize s) = s := by
  rcases eq_or_ne s [] with rfl | hs
  · rfl
  · rw [rtlVisualize_of_hebrew hs hheb]
    have hr : ∀ c ∈ reverseGraphemes s, isHebrewB c = true :=
      fun c hc => hheb c (mem_reverseGraphemes.mp hc)
    have hrne : reverseGraphemes s ≠ [] := by
      intro h
      apply hs
      have := length_reverseGraphemes s
      rw [h] at this
      exact List.length_eq_zero.mp this.symm
    rw [rtlVisualize_of_hebrew hrne hr]
    exact reverseGraphemes_involutive s hhead

/-- Witness for C9 (amended) at the concrete string alef + qamats. -/
theorem C9_pure_rtl_involution_witness :
    rtlVisualize (rtlVisualize [0x5D0, 0x5B8]) = [0x5D0, 0x5B8] :=
  C9_pure_rtl_involution [0x5D0, 0x5B8] (by decide) (by decide)

/-- C9 as stated is false: the pure-Hebrew string qamats + alef (a combining
mark with no base letter, followed by a letter) is not restored by applying
`rtlVisualize` twice — the first reversal glues the mark onto the letter into
a single grapheme cluster, which the second reversal keeps intact. -/
theorem C9_counterexample :
    (∀ c ∈ [0x5B8, 0x5D0], isHebrewB c = true) ∧
    rtlVisualize (rtlVisualize [0x5B8, 0x5D0]) ≠ [0x5B8, 0x5D0] := by
  constructor
  · decide
  · decide

/-! ## C1: the reorderer on Hebrew-free strings -/

/-- C1 as stated is false on two kinds of Hebrew-free input: the digit string
`"12"` matches the fast-path class (which contains `0-9`) and is reversed to
`"21"`, and the two-run string `"a b"` has its run order reversed to
`"b a"`. -/
theorem C1_counterexample :
    (containsHebrew [0x31, 0x32] = false ∧
      rtlVisualize [0x31, 0x32] ≠ [0x31, 0x32]) ∧
    (containsHebrew [0x61, 0x20, 0x62] = false ∧
      rtlVisualize [0x61, 0x20, 0x62] ≠ [0x61, 0x20, 0x62]) := by
  refine ⟨⟨by decide, by decide⟩, ⟨by decide, by decide⟩⟩

/-- C1 (amended): a Hebrew-free string is returned unchanged by
`rtlVisualize` provided it does not match the fast-path character class and
consists of at most one class run. -/
theorem C1_no_rtl_single_run_id (s : Str)
    (hheb : containsHebrew s = false)
    (hfast : isFastPath s = false)
    (hruns : (runs s).length ≤ 1) :
    rtlVisualize s = s := by
  unfold rtlVisualize
  rw [hfast]
  simp only [Bool.false_eq_true, if_false]
  cases h : runs s with
  | nil => rfl
  | cons t ts =>
    cases ts with
    | cons t2 ts2 => rw [h] at hruns; simp at hruns
    | nil =>
      have hflat : t = s := by
        have := runs_flatten s
        rw [h] at this
        simpa using this
      have hnoheb : t.any isHebrewB = false := by rw [hflat]; exact hheb
      simp only [List.map_cons, List.map_nil, hnoheb, Bool.false_eq_true,
        if_false, List.reverse_cons, List.reverse_nil, List.nil_append,
        List.flatten_cons, List.flatten_nil, List.append_nil]
      exact hflat

/-- Witness for C1 (amended) at the single-run Latin string `"ab"`. -/
theorem C1_no_rtl_single_run_id_witness :
    rtlVisualize [0x61, 0x62] = [0x61, 0x62] :=
  C1_no_rtl_single_run_id [0x61, 0x62] (by decide) (by decide) (by decide)

/-! ## C2: digit runs and the fast path -/

/-- C2 names a code bug: the fast-path regex class of `rtlVisualize`
contains the digits `0-9`, so the Hebrew-plus-digits string `"אב 12"` takes
the fast path and is reversed whole — the digit run `12` comes out reversed
as `21`, contradicting both the claim and the function's own documentation
("Keep Latin/digits runs as-is (so 2025, ABC stay readable)"); the general
path would have produced `12` followed by the reversed Hebrew run. -/
theorem C2_fast_path_reverses_digits :
    isFastPath [0x5D0, 0x5D1, 0x20, 0x31, 0x32] = true ∧
    rtlVisualize [0x5D0, 0x5D1, 0x20, 0x31, 0x32] =
      [0x32, 0x31, 0x20, 0x5D1, 0x5D0] := by
  exact ⟨by decide, by decide⟩

/-! ## C3: explicit direction "auto" -/

/-- C3 names a code bug: an explicit `direction: "auto"` is never resolved.
The `??` in the direction resolution substitutes only for an absent
`direction`, so `"auto"` survives as-is instead of resolving to RTL; with a
Hebrew value, a box width, and the defaults enabled, the unset-direction
field resolves to RTL with right alignment while the `"auto"` field keeps
direction `"auto"` and left alignment, producing different draw output —
contradicting the claim (and the `FieldSpec` comment
`"auto" tries to detect Hebrew.`). -/
theorem C3_auto_direction_not_detected :
    resolveDirection (some Direction.auto) true [0x5D0] = Direction.auto ∧
    resolveDirection none true [0x5D0] = Direction.rtl ∧
    resolveAlign none (resolveDirection (some Direction.auto) true [0x5D0])
      true (some 100) = Align.left ∧
    resolveAlign none (resolveDirection none true [0x5D0])
      true (some 100) = Align.right ∧
    fillField (fun _ _ => 10) true true none
      {pageIndex := 0, x := 0, y := 0, width := some 100,
        direction := some Direction.auto} [0x5D0] ≠
    fillField (fun _ _ => 10) true true none
      {pageIndex := 0, x := 0, y := 0, width := some 100} [0x5D0] := by
  refine ⟨by decide, by decide, by decide, by decide, ?_⟩
  set_option maxRecDepth 4000 in with_unfolding_all decide

/-! ## C4: render-text selection -/

/-- C4: given the resolved direction, the drawn text is the raw value for
RTL, the visually reordered value for LTR with Hebrew content, and the raw
value otherwise. -/
theorem C4_render_text_selection (d : Direction) (v : Str) :
    (d = Direction.rtl → renderedText d v = v) ∧
    (d = Direction.ltr → containsHebrew v = true →
      renderedText d v = rtlVisualize v) ∧
    (d ≠ Direction.rtl → ¬(d = Direction.ltr ∧ containsHebrew v = true) →
      renderedText d v = v) := by
  refine ⟨?_, ?_, ?_⟩
  · intro h; rw [renderedText, if_pos h]
  · intro h hv
    rw [renderedText, if_neg (by rw [h]; intro hc; cases hc), if_pos ⟨h, hv⟩]
  · intro h hn
    rw [renderedText, if_neg h, if_neg hn]

/-- Witness for C4 at a concrete LTR field holding a Hebrew letter. -/
theorem C4_render_text_selection_witness :
    renderedText Direction.ltr [0x5D0] = rtlVisualize [0x5D0] :=
  (C4_render_text_selection Direction.ltr [0x5D0]).2.1 rfl (by decide)

/-! ## C7: horizontal alignment -/

/-- C7 as stated is false at a zero box width: JavaScript treats `width: 0`
as falsy, so `computeAlignedX` returns the anchor x for every alignment,
while the claim's center formula demands `x + (0 - textWidth)/2`. -/
theorem C7_counterexample :
    computeAlignedX 10 (some 0) Align.center 40 = 10 ∧
    (10 : ℚ) ≠ 10 + (0 - 40) / 2 := by
  exact ⟨by with_unfolding_all decide, by with_unfolding_all decide⟩

/-- C7 (amended): the alignment offsets are the anchor x for `"left"` or an
absent width, and the claimed center/right formulas for a nonzero width;
in particular width 100 and text width 40 give `x + 30` (center) and
`x + 60` (right). -/
theorem C7_aligned_x (x w t : ℚ) :
    (∀ a, computeAlignedX x none a t = x) ∧
    computeAlignedX x (some w) Align.left t = x ∧
    (w ≠ 0 → computeAlignedX x (some w) Align.center t = x + (w - t) / 2) ∧
    (w ≠ 0 → computeAlignedX x (some w) Align.right t = x + (w - t)) ∧
    computeAlignedX x (some 100) Align.center 40 = x + 30 ∧
    computeAlignedX x (some 100) Align.right 40 = x + 60 := by
  refine ⟨fun a => rfl, ?_, ?_, ?_, ?_, ?_⟩
  · rw [computeAlignedX]; simp
  · intro hw
    rw [computeAlignedX]
    rw [if_neg (by simp [hw]), if_pos rfl]
  · intro hw
    rw [computeAlignedX]
    rw [if_neg (by simp [hw]), if_neg (by simp)]
  · rw [computeAlignedX]
    rw [if_neg (not_or.mpr ⟨by norm_num, by decide⟩), if_pos rfl]
    norm_num
  · rw [computeAlignedX]
    rw [if_neg (not_or.mpr ⟨by norm_num, by decide⟩), if_neg (by decide)]
    norm_num

/-- Witness for C7 (amended) at width 100, text width 40, anchor 5. -/
theorem C7_aligned_x_witness :
    computeAlignedX 5 (some 100) Align.center 40 = 5 + (100 - 40) / 2 :=
  (C7_aligned_x 5 100 40).2.2.1 (by norm_num)

/-! ## C10: a width of exactly 0 -/

/-- C10 as stated ("behaves identically to a FieldSpec with no width at
all") is false: the background-clear rectangle width uses
`spec.width ?? maxLineWidth(...)`, and `??` substitutes only for an absent
width, so with `clearBackground` and a height set, `width: 0` yields a
zero-width rectangle while an absent width yields the measured line width. -/
theorem C10_counterexample :
    fillField (fun _ _ => 7) true true none
      {pageIndex := 0, x := 0, y := 0, width := some 0, height := some 5,
        clearBackground := true} [0x61] ≠
    fillField (fun _ _ => 7) true true none
      {pageIndex := 0, x := 0, y := 0, width := none, height := some 5,
        clearBackground := true} [0x61] := by
  set_option maxRecDepth 4000 in with_unfolding_all decide

/-- C10 (amended): with `width: 0`, font fitting is skipped (the fallback
size is returned, as with no width), every line is drawn at the anchor x
regardless of alignment (as with no width), and the RTL right-align default
is not applied (as with no width) — exactly the three behaviours listed by
the claim; only the background-rectangle width of the `??` fallback
distinguishes `width: 0` from an absent width. -/
theorem C10_zero_width (measure : Str → ℚ → ℚ) (lines : List Str)
    (spec : FieldSpecL) (fb x t : ℚ) (a : Align) (d : Direction) (b : Bool) :
    fitFontSizeToWidth measure lines
      {spec with width := some 0} fb = fb ∧
    fitFontSizeToWidth measure lines
      {spec with width := none} fb = fb ∧
    computeAlignedX x (some 0) a t = x ∧
    computeAlignedX x none a t = x ∧
    resolveAlign none d b (some 0) = resolveAlign none d b none ∧
    resolveAlign none Direction.rtl true (some 0) = Align.left := by
  refine ⟨?_, rfl, ?_, rfl, ?_, by decide⟩
  · rw [fitFontSizeToWidth]
    simp
  · rw [computeAlignedX]
    simp
  · rw [resolveAlign, resolveAlign]
    simp [optTruthy]

/-! ## The fit loop: characterization lemmas -/

/-- If the first `k` scanned sizes do not fit and the `k`-th does (while still
above the floor), the scan returns the `k`-th scanned size. -/
theorem fitScan_first (fits : ℚ → Bool) (minSize : ℚ) :
    ∀ (k fuel : ℕ) (size : ℚ), k < fuel →
      minSize < size - k / 2 → fits (size - k / 2) = true →
      (∀ j : ℕ, j < k → fits (size - j / 2) = false) →
      fitScan fits minSize fuel size = size - (k : ℚ) / 2 := by
  intro k
  induction k with
  | zero =>
    intro fuel size hfuel hlt hfit _
    cases fuel with
    | zero => omega
    | succ f =>
      have hlt' : minSize < size := by simpa using hlt
      have hfit' : fits size = true := by simpa using hfit
      simp [fitScan, hlt', hfit']
  | succ k ih =>
    intro fuel size hfuel hlt hfit hprev
    cases fuel with
    | zero => omega
    | succ f =>
      have hlt0 : minSize < size := by
        have hpos : (0:ℚ) ≤ ((k+1 : ℕ) : ℚ) / 2 := by positivity
        linarith
      have hfit0 : fits size = false := by simpa using hprev 0 (Nat.succ_pos k)
      have hstep : fitScan fits minSize (f+1) size =
          fitScan fits minSize f (size - 1/2) := by
        simp [fitScan, hlt0, hfit0]
      rw [hstep, show size - ((k+1:ℕ):ℚ)/2 = size - 1/2 - (k:ℚ)/2 by push_cast; ring]
      apply ih f (size - 1/2) (by omega)
      · rw [show size - 1/2 - (k:ℚ)/2 = size - ((k+1:ℕ):ℚ)/2 by push_cast; ring]
        exact hlt
      · rw [show size - 1/2 - (k:ℚ)/2 = size - ((k+1:ℕ):ℚ)/2 by push_cast; ring]
        exact hfit
      · intro j hj
        rw [show size - 1/2 - (j:ℚ)/2 = size - ((j+1:ℕ):ℚ)/2 by push_cast; ring]
        exact hprev (j + 1) (by omega)

/-- If no scanned size fits, the scan returns the floor. -/
theorem fitScan_none (fits : ℚ → Bool) (minSize : ℚ) :
    ∀ (fuel : ℕ) (size : ℚ),
      (∀ k : ℕ, minSize < size - k / 2 → fits (size - k / 2) = false) →
      fitScan fits minSize fuel size = minSize := by
  intro fuel
  induction fuel with
  | zero => intro size _; rfl
  | succ f ih =>
    intro size h
    by_cases hlt : minSize < size
    · have h0 : fits size = false := by simpa using h 0 (by simpa using hlt)
      have hstep : fitScan fits minSize (f+1) size =
          fitScan fits minSize f (size - 1/2) := by
        simp [fitScan, hlt, h0]
      rw [hstep]
      apply ih
      intro k hk
      rw [show size - 1/2 - (k:ℚ)/2 = size - ((k+1:ℕ):ℚ)/2 by push_cast; ring] at hk ⊢
      exact h (k+1) hk
    · simp [fitScan, hlt]

/-- The scan returns either the floor or a scanned size above the floor that
fits. -/
theorem fitScan_cases (fits : ℚ → Bool) (minSize : ℚ) :
    ∀ (fuel : ℕ) (size : ℚ),
      fitScan fits minSize fuel size = minSize ∨
      ∃ k : ℕ, fitScan fits minSize fuel size = size - k / 2 ∧
        minSize < size - k / 2 ∧ fits (size - k / 2) = true := by
  intro fuel
  induction fuel with
  | zero => intro size; left; rfl
  | succ f ih =>
    intro size
    by_cases hlt : minSize < size
    · by_cases hfit : fits size = true
      · right
        exact ⟨0, by simp [fitScan, hlt, hfit], by simpa using hlt, by simpa using hfit⟩
      · have hfit' : fits size = false := by simpa using hfit
        have hstep : fitScan fits minSize (f+1) size =
            fitScan fits minSize f (size - 1/2) := by
          simp [fitScan, hlt, hfit']
        rw [hstep]
        rcases ih (size - 1/2) with h | ⟨k, h1, h2, h3⟩
        · left; exact h
        · right
          refine ⟨k + 1, ?_, ?_, ?_⟩ <;>
            rw [show size - ((k+1:ℕ):ℚ)/2 = size - 1/2 - (k:ℚ)/2 by push_cast; ring] <;>
            assumption
    · left; simp [fitScan, hlt]

/-- The fuel passed to the scan bounds every index of a scanned size above
the floor. -/
theorem lt_fitFuel {maxS minS : ℚ} {k : ℕ} (h : minS < maxS - k / 2) :
    k < fitFuel maxS minS := by
  have h1 : ((k : ℤ) : ℚ) < 2 * (maxS - minS) := by push_cast; linarith
  have h2 : (k : ℤ) < ⌈2 * (maxS - minS)⌉ := Int.lt_ceil.mpr h1
  rw [fitFuel]
  omega

/-- A falsy width (absent or 0) skips fitting entirely. -/
theorem fitFontSizeToWidth_of_falsy (measure : Str → ℚ → ℚ) (lines : List Str)
    (spec : FieldSpecL) (fb : ℚ) (h : optTruthy spec.width = false) :
    fitFontSizeToWidth measure lines spec fb = fb := by
  rcases hw : spec.width with _ | w
  · simp [fitFontSizeToWidth, hw]
  · rw [hw] at h
    have hw0 : w = 0 := by simpa [optTruthy] using h
    simp [fitFontSizeToWidth, hw, hw0]

/-- A truthy width makes `fitFontSizeToWidth` the scan from the effective
maximum size. -/
theorem fitFontSizeToWidth_of_truthy (measure : Str → ℚ → ℚ) (lines : List Str)
    (spec : FieldSpecL) (fb w : ℚ) (hw : spec.width = some w) (hw0 : w ≠ 0) :
    fitFontSizeToWidth measure lines spec fb =
      fitScan (fun size => decide (maxLineWidth measure lines size ≤ w))
        (spec.minFontSize.getD 6)
        (fitFuel (spec.maxFontSize.getD fb) (spec.minFontSize.getD 6))
        (spec.maxFontSize.getD fb) := by
  simp [fitFontSizeToWidth, hw, hw0]

/-! ## C5: the Font-Fit Engine postcondition -/

/-- C5 as stated is false when the effective maximum (here an explicit
`maxFontSize` of 4) lies below the effective minimum (the default floor 6):
the widest line fits at `maxSize` (width 0 ≤ 10) but the loop guard
`size > minSize` fails immediately and the floor 6 is returned instead of
`maxSize = 4`. -/
theorem C5_counterexample :
    maxLineWidth (fun _ _ => 0) [[]] 4 ≤ 10 ∧
    fitFontSizeToWidth (fun _ _ => 0) [[]]
      {pageIndex := 0, x := 0, y := 0, width := some 10,
        maxFontSize := some 4} 12 = 6 ∧
    (6 : ℚ) ≠ 4 := by
  refine ⟨by with_unfolding_all decide, by with_unfolding_all decide, by norm_num⟩

/-- C5 (amended): with a falsy width the fallback size is returned; with a
truthy width, provided the effective minimum (`minFontSize ?? 6`) does not
exceed the effective maximum (`maxFontSize ?? fallback`), the engine returns
the first size — scanning from the maximum downward in steps of 0.5 while
above the minimum — whose widest measured line fits the width; in particular
the maximum itself whenever it fits, and exactly the minimum when no scanned
size fits (no exception: the function is total). -/
theorem C5_font_fit (measure : Str → ℚ → ℚ) (lines : List Str)
    (spec : FieldSpecL) (fb : ℚ) :
    (optTruthy spec.width = false →
      fitFontSizeToWidth measure lines spec fb = fb) ∧
    (∀ w, spec.width = some w → w ≠ 0 →
      spec.minFontSize.getD 6 ≤ spec.maxFontSize.getD fb →
      ((maxLineWidth measure lines (spec.maxFontSize.getD fb) ≤ w →
        fitFontSizeToWidth measure lines spec fb = spec.maxFontSize.getD fb) ∧
      ((∀ k : ℕ, spec.minFontSize.getD 6 < spec.maxFontSize.getD fb - k / 2 →
          w < maxLineWidth measure lines (spec.maxFontSize.getD fb - k / 2)) →
        fitFontSizeToWidth measure lines spec fb = spec.minFontSize.getD 6) ∧
      (∀ k : ℕ, spec.minFontSize.getD 6 < spec.maxFontSize.getD fb - k / 2 →
        maxLineWidth measure lines (spec.maxFontSize.getD fb - k / 2) ≤ w →
        (∀ j : ℕ, j < k →
          w < maxLineWidth measure lines (spec.maxFontSize.getD fb - j / 2)) →
        fitFontSizeToWidth measure lines spec fb =
          spec.maxFontSize.getD fb - k / 2))) := by
  constructor
  · exact fitFontSizeToWidth_of_falsy measure lines spec fb
  · intro w hw hw0 hminmax
    have hunfold := fitFontSizeToWidth_of_truthy measure lines spec fb w hw hw0
    refine ⟨?_, ?_, ?_⟩
    · intro hfit
      rcases eq_or_lt_of_le hminmax with heq | hlt
      · rw [hunfold, ← heq]
        rw [fitFuel]
        simp [fitScan]
      · rw [hunfold]
        have h0 := fitScan_first
          (fun size => decide (maxLineWidth measure lines size ≤ w))
          (spec.minFontSize.getD 6) 0
          (fitFuel (spec.maxFontSize.getD fb) (spec.minFontSize.getD 6))
          (spec.maxFontSize.getD fb)
          (by rw [fitFuel]; omega)
          (by simpa using hlt)
          (by simpa using decide_eq_true hfit)
          (fun j hj => absurd hj (Nat.not_lt_zero j))
        simpa using h0
    · intro hnofit
      rw [hunfold]
      apply fitScan_none
      intro k hk
      exact decide_eq_false (not_le.mpr (hnofit k hk))
    · intro k hk hfitk hprev
      rw [hunfold]
      exact fitScan_first _ _ k _ _ (lt_fitFuel hk) hk (decide_eq_true hfitk)
        (fun j hj => decide_eq_false (not_le.mpr (hprev j hj)))

/-- Witness for C5 (amended): measuring a two-character line at `2 × size`,
in a box of width 9 with bounds [4, 6], the scan tries 6, 5.5, 5 (too wide)
and returns 4.5, the first fitting size. -/
theorem C5_font_fit_witness :
    fitFontSizeToWidth (fun l s => (l.length : ℚ) * s) [[0x61, 0x61]]
      {pageIndex := 0, x := 0, y := 0, width := some 9,
        maxFontSize := some 6, minFontSize := some 4} 12 = 9/2 := by
  have h := ((C5_font_fit (fun l s => (l.length : ℚ) * s) [[0x61, 0x61]]
      {pageIndex := 0, x := 0, y := 0, width := some 9,
        maxFontSize := some 6, minFontSize := some 4} 12).2 9 rfl
      (by norm_num) (by with_unfolding_all decide)).2.2 3
      (by with_unfolding_all decide)
      (by with_unfolding_all decide)
      (by with_unfolding_all decide)
  rw [h]
  with_unfolding_all decide

/-! ## C8: the drawn font size stays within the configured bounds -/

/-- C8 as stated is false when `maxFontSize` is given but `minFontSize` is
not: the default floor 6 exceeds the explicit maximum 4, the loop guard
fails immediately, and the size 6 used for drawing exceeds `maxFontSize`.
The claim's proviso ("minFontSize ≤ maxFontSize when both are given") is
vacuously satisfied since `minFontSize` is absent. -/
theorem C8_counterexample :
    usedFontSize (fun _ _ => 0) true none
      {pageIndex := 0, x := 0, y := 0, width := some 20,
        maxFontSize := some 4} [0x61] = 6 ∧
    ¬((6 : ℚ) ≤ 4) := by
  refine ⟨by with_unfolding_all decide, by norm_num⟩

/-- C8 (amended): with a truthy width, assuming the effective minimum
(`minFontSize ?? 6`) does not exceed the effective maximum
(`maxFontSize ?? baseFontSize`), the fitted size lies within those bounds;
with a falsy width it equals the explicit/default base size; and every text
instruction a field emits is drawn exactly at that fitted size. -/
theorem C8_font_size_bounds (measure : Str → ℚ → ℚ) (adr drar : Bool)
    (dfs : Option ℚ) (spec : FieldSpecL) (rawValue : Str) :
    (optTruthy spec.width = true →
      spec.minFontSize.getD 6 ≤
        spec.maxFontSize.getD (baseFontSizeOf dfs spec) →
      spec.minFontSize.getD 6 ≤ usedFontSize measure adr dfs spec rawValue ∧
      usedFontSize measure adr dfs spec rawValue ≤
        spec.maxFontSize.getD (baseFontSizeOf dfs spec)) ∧
    (optTruthy spec.width = false →
      usedFontSize measure adr dfs spec rawValue = baseFontSizeOf dfs spec) ∧
    (∀ p s x y sz,
      DrawOp.text p s x y sz ∈ fillField measure adr drar dfs spec rawValue →
      sz = usedFontSize measure adr dfs spec rawValue) := by
  refine ⟨?_, ?_, ?_⟩
  · intro ht hm
    rcases hw : spec.width with _ | w
    · rw [hw] at ht; simp [optTruthy] at ht
    · rw [hw] at ht
      have hw0 : w ≠ 0 := by simpa [optTruthy] using ht
      have hunfold := fitFontSizeToWidth_of_truthy measure
        (splitLines (renderedText
          (resolveDirection spec.direction adr rawValue) rawValue))
        spec (baseFontSizeOf dfs spec) w hw hw0
      rw [usedFontSize, hunfold]
      rcases fitScan_cases
        (fun size => decide (maxLineWidth measure
          (splitLines (renderedText
            (resolveDirection spec.direction adr rawValue) rawValue)) size ≤ w))
        (spec.minFontSize.getD 6)
        (fitFuel (spec.maxFontSize.getD (baseFontSizeOf dfs spec))
          (spec.minFontSize.getD 6))
        (spec.maxFontSize.getD (baseFontSizeOf dfs spec))
        with h | ⟨k, h1, h2, h3⟩
      · rw [h]; exact ⟨le_refl _, hm⟩
      · rw [h1]
        have hk : (0:ℚ) ≤ (k:ℚ)/2 := by positivity
        constructor
        · linarith
        · linarith
  · intro ht
    rw [usedFontSize]
    exact fitFontSizeToWidth_of_falsy measure _ spec _ ht
  · intro p s x y sz hmem
    rw [fillField] at hmem
    rcases List.mem_append.mp hmem with h | h
    · exfalso
      rcases Bool.eq_false_or_eq_true
          (spec.clearBackground &&
            (optTruthy spec.width || optTruthy spec.height)) with hb | hb <;>
        simp [hb] at h
    · obtain ⟨pr, _, heq⟩ := List.mem_map.mp h
      injection heq with h1 h2 h3 h4 h5
      rw [← h5, usedFontSize]

/-- Witness for C8 (amended): a field with width 10 and bounds [3, 8] draws
at a size within [3, 8]. -/
theorem C8_font_size_bounds_witness :
    (3:ℚ) ≤ usedFontSize (fun _ s => s) true none
      {pageIndex := 0, x := 0, y := 0, width := some 10,
        fontSize := some 12, maxFontSize := some 8, minFontSize := some 3}
      [0x61] ∧
    usedFontSize (fun _ s => s) true none
      {pageIndex := 0, x := 0, y := 0, width := some 10,
        fontSize := some 12, maxFontSize := some 8, minFontSize := some 3}
      [0x61] ≤ 8 := by
  have h := (C8_font_size_bounds (fun _ s => s) true true none
      {pageIndex := 0, x := 0, y := 0, width := some 10,
        fontSize := some 12, maxFontSize := some 8, minFontSize := some 3}
      [0x61]).1 (by decide) (by with_unfolding_all decide)
  exact ⟨h.1, h.2⟩

/-! ## C6: unknown field names abort the fill -/

/-- C6: if any requested field name has no entry in the field map, the fill
returns an "unknown field" error and produces no output. -/
theorem C6_unknown_field_aborts (measure : Str → ℚ → ℚ) (adr drar : Bool)
    (dfs : Option ℚ) (fieldMap : String → Option FieldSpecL)
    (entries : List (String × Str))
    (hmiss : ∃ e ∈ entries, fieldMap e.1 = none) :
    ∃ bad, fieldMap bad = none ∧
      fillFields measure adr drar dfs fieldMap entries =
        Except.error (unknownFieldMessage bad) := by
  induction entries with
  | nil => obtain ⟨e, he, _⟩ := hmiss; simp at he
  | cons nv rest ih =>
    obtain ⟨e, he, hnone⟩ := hmiss
    obtain ⟨n, v⟩ := nv
    cases hmap : fieldMap n with
    | none => exact ⟨n, hmap, by simp [fillFields, hmap]⟩
    | some spec =>
      have hrest : ∃ e ∈ rest, fieldMap e.1 = none := by
        rcases List.mem_cons.mp he with heq | hmem
        · rw [heq] at hnone; rw [hnone] at hmap; cases hmap
        · exact ⟨e, hmem, hnone⟩
      obtain ⟨bad, hbad, herr⟩ := ih hrest
      exact ⟨bad, hbad, by simp [fillFields, hmap, herr, Except.map]⟩

/-- Witness for C6: a request whose second entry names an unmapped field
errors out with the unknown-field message and yields no draw output. -/
theorem C6_unknown_field_aborts_witness :
    ∃ bad,
      (fun n => if n = "fullName" then
        some ({pageIndex := 0, x := 0, y := 0} : FieldSpecL) else none) bad
        = none ∧
      fillFields (fun _ _ => 0) true true none
        (fun n => if n = "fullName" then
          some {pageIndex := 0, x := 0, y := 0} else none)
        [("fullName", [0x61]), ("missing", [])] =
        Except.error (unknownFieldMessage bad) :=
  C6_unknown_field_aborts (fun _ _ => 0) true true none _ _
    ⟨("missing", []), by simp, by simp⟩
